import Mathlib

/-!
# Verification of the calpac-2026 handicap/net-score engine

Shallow embedding of the pure scoring functions of
`src/app/group/[groupId]/page.tsx` (the handicap/net-score engine) and of the
closest-to-pin distance normalization helpers, together with proofs of the
specification's claims about them.

Modelling conventions:
* A JavaScript number that the code treats as a score, par or stroke index is
  modelled as an integer `ℤ` (all model values are finite, so the code's
  `Number.isFinite` guards on such values are identically true).
* `totalStrokes` / penalty-stroke arguments, which the code passes through
  `Math.floor`, are modelled as rationals `ℚ` so that flooring is meaningful;
  `Math.floor` becomes `Int.floor`.
* A score array entry is `Option ℤ`: `none` models `null`/`undefined`/any
  non-number, `some v` models the number `v`.
* `Math.floor (x / 18)` on an integer `x` is `Int.fdiv x 18` (floor division).
-/

namespace Calpac

/-- `HOLE_COUNT = 18` from the source. -/
def HOLE_COUNT : ℕ := 18

/-- Embeds `sum(scores)`: `scores.reduce((acc, v) => typeof v === "number" ? acc + v : acc, 0)`.
`none` entries (null / non-number) are skipped; every numeric entry, including
a negative one, is added. -/
def sum (scores : List (Option ℤ)) : ℤ :=
  scores.foldl (fun acc v => match v with | some n => acc + n | none => acc) 0

/-- Embeds `sumNumbers(values)`: `values.reduce((acc, v) => acc + v, 0)`. -/
def sumNumbers (values : List ℤ) : ℤ :=
  values.foldl (· + ·) 0

/-- Embeds `isCompleteRound(scores)`: false unless the array has exactly 18
entries, every one a finite number `≥ 0` (finiteness is automatic in the
model). -/
def isCompleteRound (scores : List (Option ℤ)) : Bool :=
  scores.length == HOLE_COUNT &&
    scores.all (fun v => match v with | some n => decide (0 ≤ n) | none => false)

/-- The integer core of `strokesForHole`, in terms of the already-floored
total `s = Math.floor(totalStrokes)`. -/
def strokesForHoleInt (holeStrokeIndex s : ℤ) : ℤ :=
  if holeStrokeIndex < 1 ∨ 18 < holeStrokeIndex then 0
  else if s ≤ 0 then 0
  else if s < holeStrokeIndex then 0
  else 1 + Int.fdiv (s - holeStrokeIndex) 18

/-- Embeds `strokesForHole(holeStrokeIndex, totalStrokes)`:
returns 0 for a stroke index outside `[1,18]`, for `Math.floor(totalStrokes) ≤ 0`
and when the floored total is below the index; otherwise
`1 + Math.floor((s - holeStrokeIndex) / 18)` with `s = Math.floor(totalStrokes)`. -/
def strokesForHole (holeStrokeIndex : ℤ) (totalStrokes : ℚ) : ℤ :=
  strokesForHoleInt holeStrokeIndex ⌊totalStrokes⌋

/-- The stroke-deduction loop of `computeNetRunningTotal`: for each hole
`i < 18` whose score entry is a (finite) number `≥ 0`, accumulate
`strokesForHole(hcps[i], totalStrokes)`. -/
def strokesUsed (scores : List (Option ℤ)) (hcps : List ℤ) (totalStrokes : ℚ) : ℤ :=
  ((List.range HOLE_COUNT).map (fun i =>
    match scores.getD i none with
    | some v => if 0 ≤ v then strokesForHole (hcps.getD i 0) totalStrokes else 0
    | none => 0)).sum

/-- Embeds `computeNetRunningTotal({scores, hcps, totalStrokes})`.
`hcps = none` models a missing (`null`/non-array) stroke-index table. -/
def computeNetRunningTotal (scores : List (Option ℤ)) (hcps : Option (List ℤ))
    (totalStrokes : ℚ) : ℤ :=
  let gross := sum scores
  match hcps with
  | some h =>
    if h.length = HOLE_COUNT then gross - strokesUsed scores h totalStrokes
    else if isCompleteRound scores then gross - ⌊totalStrokes⌋ else gross
  | none => if isCompleteRound scores then gross - ⌊totalStrokes⌋ else gross

/-- The per-hole net loop of `computeNetToPar` (only reached for a complete
round): `netTotal += (scores[i] as number) - strokesForHole(hcps[i], totalStrokes)`. -/
def netTotalPerHole (scores : List (Option ℤ)) (hcps : List ℤ) (totalStrokes : ℚ) : ℤ :=
  ((List.range HOLE_COUNT).map (fun i =>
    (scores.getD i none).getD 0 - strokesForHole (hcps.getD i 0) totalStrokes)).sum

/-- Embeds `computeNetToPar({scores, pars, hcps, totalStrokes})`. -/
def computeNetToPar (scores : List (Option ℤ)) (pars : List ℤ) (hcps : Option (List ℤ))
    (totalStrokes : ℚ) : Option ℤ :=
  if isCompleteRound scores = false then none
  else if pars.length ≠ HOLE_COUNT then none
  else
    let parsTotal := sumNumbers pars
    match hcps with
    | some h =>
      if h.length = HOLE_COUNT then some (netTotalPerHole scores h totalStrokes - parsTotal)
      else some (sum scores - ⌊totalStrokes⌋ - parsTotal)
    | none => some (sum scores - ⌊totalStrokes⌋ - parsTotal)

/-- Hole predicate used by `computeToParSoFar` and the stroke loop: the entry is
a (finite) number `≥ 0`. -/
def isScoredNonneg (v : Option ℤ) : Bool :=
  match v with | some n => decide (0 ≤ n) | none => false

/-- Embeds `computeToParSoFar({scores, pars})`: `null` without a valid 18-entry
par table or when no hole has been scored, otherwise gross-so-far minus
par-so-far over the scored holes. -/
def computeToParSoFar (scores : List (Option ℤ)) (pars : Option (List ℤ)) : Option ℤ :=
  match pars with
  | some ps =>
    if ps.length = HOLE_COUNT then
      let holes := (List.range HOLE_COUNT).filter (fun i => isScoredNonneg (scores.getD i none))
      if holes.length = 0 then none
      else some ((holes.map (fun i => (scores.getD i none).getD 0)).sum
                  - (holes.map (fun i => ps.getD i 0)).sum)
    else none
  | none => none

/-- Embeds `applyCharityAtEnd(net, scores, charity)`. -/
def applyCharityAtEnd (net : ℤ) (scores : List (Option ℤ)) (charity : ℚ) : ℤ :=
  let c := ⌊charity⌋
  if c ≤ 0 then net
  else if isCompleteRound scores then net - c else net

/-! ### C4: reading a stored score table (`coerceScoreTable`) -/
/-- A raw JavaScript numeric value as stored: a finite number, or one of the
non-finite values `NaN` / `Infinity` / `-Infinity`. -/
inductive JSNum where
  | fin (v : ℤ)
  | nan
  | inf
  | neginf
deriving DecidableEq

/-- The per-entry coercion of `coerceScoreTable`:
`typeof v === "number" && Number.isFinite(v) ? v : null`. -/
def coerceScoreEntry (v : Option JSNum) : Option ℤ :=
  match v with
  | some (JSNum.fin n) => some n
  | _ => none

/-- One player's row of `coerceScoreTable`: a present array is padded/truncated
to 18 entries, each coerced; a missing or non-array value yields 18 nulls. -/
def coerceScoreRow (existing : Option (List (Option JSNum))) : List (Option ℤ) :=
  match existing with
  | some arr => (List.range HOLE_COUNT).map (fun i => coerceScoreEntry (arr.getD i none))
  | none => List.replicate HOLE_COUNT none

/-- Embeds `coerceScoreTable(players, input)` as an association list in player
order; `input p = none` models a missing or non-array stored value. -/
def coerceScoreTable (players : List String)
    (input : String → Option (List (Option JSNum))) : List (String × List (Option ℤ)) :=
  players.map (fun p => (p, coerceScoreRow (input p)))

/-- The property claimed of the coerced table: every numeric entry of every
player's array is non-negative. -/
def scoreTableNonneg (t : List (String × List (Option ℤ))) : Prop :=
  ∀ pr ∈ t, ∀ v ∈ pr.2, ∀ n : ℤ, v = some n → 0 ≤ n

/-- A stored table giving every player the single entry `-3`. -/
def negInput : String → Option (List (Option JSNum)) :=
  fun _ => some [some (JSNum.fin (-3))]

/-! ### C3 (corrected): `computeNetRunningTotal` with a stroke-index table -/
/-- Sum of `strokesForHole(table[i], totalStrokes)` over every hole whose score
entry is non-null — the allocation total that the claim attributes to
`computeNetRunningTotal`. -/
def allocSumNonnull (scores : List (Option ℤ)) (table : List ℤ) (t : ℚ) : ℤ :=
  (((List.range HOLE_COUNT).filter (fun i => (scores.getD i none).isSome)).map
    (fun i => strokesForHole (table.getD i 0) t)).sum

/-- Sum of `strokesForHole(table[i], totalStrokes)` over every hole whose score
entry is a non-negative number — the allocation total the code actually
subtracts. -/
def allocSumScored (scores : List (Option ℤ)) (table : List ℤ) (t : ℚ) : ℤ :=
  (((List.range HOLE_COUNT).filter (fun i => isScoredNonneg (scores.getD i none))).map
    (fun i => strokesForHole (table.getD i 0) t)).sum

/-- The standard stroke-index table `[1, 2, …, 18]`. -/
def stdStrokeIndex : List ℤ :=
  [1, 2, 3, 4, 5, 6, 7, 8, 9, 10, 11, 12, 13, 14, 15, 16, 17, 18]

/-- A scores array whose single non-null entry is the negative number `-1`. -/
def negScores : List (Option ℤ) := some (-1) :: List.replicate 17 none

/-! ### C8: leaderboard construction and sorting -/
/-- The tee options of the source (`TeeKey`). -/
inductive TeeKey where
  | combo
  | three
  | four
  | stampede
  | tips
deriving DecidableEq

/-- The two tournament days (`DayKey`). -/
inductive DayKey where
  | day1
  | day2
deriving DecidableEq

/-- Embeds `teeBonusForDay(day, tee)`: +1 / +2 for the `three` / `four` tees on
day 1, otherwise 0. -/
def teeBonusForDay (day : DayKey) (tee : Option TeeKey) : ℚ :=
  match day with
  | DayKey.day1 =>
    match tee with
    | some TeeKey.three => 1
    | some TeeKey.four => 2
    | _ => 0
  | DayKey.day2 => 0

/-- A leaderboard row (`LeaderRow` in the source). -/
structure LeaderRow where
  player : String
  handicap : ℚ
  adjustment : ℚ
  gross : ℤ
  net : ℤ
  toPar : Option ℤ

/-- The guard `Array.isArray(xs) && xs.length === HOLE_COUNT ? xs : null`
applied to an optional table before it is passed to the engine. -/
def validTable18 (o : Option (List ℤ)) : Option (List ℤ) :=
  match o with
  | some l => if l.length = HOLE_COUNT then some l else none
  | none => none

/-- One row of `day1Leaderboard`: allocation is `handicap + teeBonus`
(no day-2 adjustment), net applies the charity+tree penalty at round end. -/
def day1Row (scoresOf : String → List (Option ℤ))
    (handicaps charityStrokes treeStrokes : String → ℚ)
    (teeChoices : String → Option TeeKey) (pars hcps : Option (List ℤ))
    (p : String) : LeaderRow :=
  let scores := scoresOf p
  let handicap := handicaps p
  let teeBonus := teeBonusForDay DayKey.day1 (teeChoices p)
  let allocationStrokes := handicap + teeBonus
  let netBeforeCharity := computeNetRunningTotal scores (validTable18 hcps) allocationStrokes
  { player := p
    handicap := handicap
    adjustment := 0
    gross := sum scores
    net := applyCharityAtEnd netBeforeCharity scores (charityStrokes p + treeStrokes p)
    toPar := computeToParSoFar scores (validTable18 pars) }

/-- One row of `day2Leaderboard`: allocation is
`handicap + day2Adjustment + teeBonus` (day-2 tee bonus is 0). -/
def day2Row (scoresOf : String → List (Option ℤ))
    (handicaps day2Adjustments charityStrokes treeStrokes : String → ℚ)
    (teeChoices : String → Option TeeKey) (pars hcps : Option (List ℤ))
    (p : String) : LeaderRow :=
  let scores := scoresOf p
  let handicap := handicaps p
  let adjustment := day2Adjustments p
  let teeBonus := teeBonusForDay DayKey.day2 (teeChoices p)
  let allocationStrokes := handicap + adjustment + teeBonus
  let netBeforeCharity := computeNetRunningTotal scores (validTable18 hcps) allocationStrokes
  { player := p
    handicap := handicap
    adjustment := adjustment
    gross := sum scores
    net := applyCharityAtEnd netBeforeCharity scores (charityStrokes p + treeStrokes p)
    toPar := computeToParSoFar scores (validTable18 pars) }

/-- The sort order of the leaderboard comparator
`(a, b) => a.net - b.net || a.gross - b.gross || a.player.localeCompare(b.player)`:
ascending net, then gross, then player name (`localeCompare` modelled as
lexicographic string order). -/
def rowLE (a b : LeaderRow) : Prop :=
  a.net < b.net ∨ (a.net = b.net ∧
    (a.gross < b.gross ∨ (a.gross = b.gross ∧ a.player ≤ b.player)))

instance : DecidableRel rowLE := fun a b => by
  unfold rowLE
  infer_instance

instance : IsTotal LeaderRow rowLE :=
  ⟨by
    intro a b
    unfold rowLE
    rcases lt_trichotomy a.net b.net with h | h | h
    · exact Or.inl (Or.inl h)
    · rcases lt_trichotomy a.gross b.gross with h2 | h2 | h2
      · exact Or.inl (Or.inr ⟨h, Or.inl h2⟩)
      · rcases le_total a.player b.player with h3 | h3
        · exact Or.inl (Or.inr ⟨h, Or.inr ⟨h2, h3⟩⟩)
        · exact Or.inr (Or.inr ⟨h.symm, Or.inr ⟨h2.symm, h3⟩⟩)
      · exact Or.inr (Or.inr ⟨h.symm, Or.inl h2⟩)
    · exact Or.inr (Or.inl h)⟩

instance : IsTrans LeaderRow rowLE :=
  ⟨by
    intro a b c hab hbc
    unfold rowLE at hab hbc ⊢
    rcases hab with h1 | ⟨e1, h1⟩ <;> rcases hbc with h2 | ⟨e2, h2⟩
    · exact Or.inl (lt_trans h1 h2)
    · exact Or.inl (e2 ▸ h1)
    · exact Or.inl (e1 ▸ h2)
    · refine Or.inr ⟨e1.trans e2, ?_⟩
      rcases h1 with g1 | ⟨f1, p1⟩ <;> rcases h2 with g2 | ⟨f2, p2⟩
      · exact Or.inl (lt_trans g1 g2)
      · exact Or.inl (f2 ▸ g1)
      · exact Or.inl (f1 ▸ g2)
      · exact Or.inr ⟨f1.trans f2, le_trans p1 p2⟩⟩

/-- Embeds `rows.sort(comparator)` as a stable sort by `rowLE`. -/
def sortRows (rows : List LeaderRow) : List LeaderRow :=
  List.insertionSort rowLE rows

/-- Embeds `day1Leaderboard`: build one row per rostered player, then sort. -/
def day1Leaderboard (players : List String) (scoresOf : String → List (Option ℤ))
    (handicaps charityStrokes treeStrokes : String → ℚ)
    (teeChoices : String → Option TeeKey) (pars hcps : Option (List ℤ)) :
    List LeaderRow :=
  sortRows (players.map (day1Row scoresOf handicaps charityStrokes treeStrokes
    teeChoices pars hcps))

/-- Embeds `day2Leaderboard`. -/
def day2Leaderboard (players : List String) (scoresOf : String → List (Option ℤ))
    (handicaps day2Adjustments charityStrokes treeStrokes : String → ℚ)
    (teeChoices : String → Option TeeKey) (pars hcps : Option (List ℤ)) :
    List LeaderRow :=
  sortRows (players.map (day2Row scoresOf handicaps day2Adjustments charityStrokes
    treeStrokes teeChoices pars hcps))

/-- The tie-break consequence claimed for the sort: among rows with equal net
and equal gross totals, player names appear in lexicographic order. -/
def tieRule (a b : LeaderRow) : Prop :=
  a.net = b.net → a.gross = b.gross → a.player ≤ b.player

/-! ### C9: closest-to-pin distance normalization (`parseFeetInches` / `formatFeetInches`)

The free-text parser uses JavaScript regular expressions; they are embedded
here as explicit scanning functions over `List Char` implementing the same
leftmost-match semantics.  `Number()` applied to the trimmed numeric fields is
modelled on non-negative decimal-digit strings (the domain produced by
`formatFeetInches`); any other non-empty string is treated as NaN. -/
def jsIsSpace (c : Char) : Bool := c.isWhitespace

def aposChar : Char := Char.ofNat 39

def quoteChar : Char := Char.ofNat 34

def jsTrim (cs : List Char) : List Char :=
  ((cs.dropWhile jsIsSpace).reverse.dropWhile jsIsSpace).reverse

def aposMatch : List Char → Option (List Char × List Char)
  | [] => none
  | c :: rest =>
    if c.isDigit then
      if ((rest.dropWhile Char.isDigit).dropWhile jsIsSpace).head? = some aposChar then
        some ((c :: rest).takeWhile Char.isDigit,
          ((((rest.dropWhile Char.isDigit).dropWhile jsIsSpace).tail).dropWhile
            jsIsSpace).takeWhile Char.isDigit)
      else aposMatch ((rest.dropWhile Char.isDigit).dropWhile jsIsSpace)
    else aposMatch rest
termination_by cs => cs.length
decreasing_by
  · have hle : ∀ (p : Char → Bool) (l : List Char), (l.dropWhile p).length ≤ l.length := by
      intro p l
      induction l with
      | nil => simp
      | cons a l ih =>
        rw [List.dropWhile_cons]
        split_ifs
        · exact le_trans ih (by simp)
        · simp
    calc ((rest.dropWhile Char.isDigit).dropWhile jsIsSpace).length
        ≤ (rest.dropWhile Char.isDigit).length := hle _ _
      _ ≤ rest.length := hle _ _
      _ < (c :: rest).length := by simp [List.length_cons]
  · simp [List.length_cons]

def digitChar (n : ℕ) : Char :=
  match n with
  | 0 => '0'
  | 1 => '1'
  | 2 => '2'
  | 3 => '3'
  | 4 => '4'
  | 5 => '5'
  | 6 => '6'
  | 7 => '7'
  | 8 => '8'
  | _ => '9'

def natToCharsAux : ℕ → ℕ → List Char
  | 0, _ => []
  | fuel + 1, n =>
    if n < 10 then [digitChar n]
    else natToCharsAux fuel (n / 10) ++ [digitChar (n % 10)]

def natToChars (n : ℕ) : List Char := natToCharsAux (n + 1) n

def stripFtWord : List Char → Option (List Char)
  | c1 :: c2 :: rest =>
    if c1.toLower = 'f' then
      if c2.toLower = 't' then some rest
      else
        match c2 :: rest with
        | d1 :: d2 :: d3 :: rest2 =>
          if d1.toLower = 'e' ∧ d2.toLower = 'e' ∧ d3.toLower = 't' then some rest2 else none
        | _ => none
    else none
  | _ => none

def ftMatch : List Char → Option (List Char × List Char)
  | [] => none
  | c :: rest =>
    if c.isDigit then
      match stripFtWord ((rest.dropWhile Char.isDigit).dropWhile jsIsSpace) with
      | some rest2 =>
        some ((c :: rest).takeWhile Char.isDigit,
          (rest2.dropWhile jsIsSpace).takeWhile Char.isDigit)
      | none => ftMatch ((rest.dropWhile Char.isDigit).dropWhile jsIsSpace)
    else ftMatch rest
termination_by cs => cs.length
decreasing_by
  · have hle : ∀ (p : Char → Bool) (l : List Char), (l.dropWhile p).length ≤ l.length := by
      intro p l
      induction l with
      | nil => simp
      | cons a l ih =>
        rw [List.dropWhile_cons]
        split_ifs
        · exact le_trans ih (by simp)
        · simp
    calc ((rest.dropWhile Char.isDigit).dropWhile jsIsSpace).length
        ≤ (rest.dropWhile Char.isDigit).length := hle _ _
      _ ≤ rest.length := hle _ _
      _ < (c :: rest).length := by simp [List.length_cons]
  · simp [List.length_cons]

def digitRuns : List Char → List (List Char)
  | [] => []
  | c :: rest =>
    if c.isDigit then
      ((c :: rest).takeWhile Char.isDigit) :: digitRuns (rest.dropWhile Char.isDigit)
    else digitRuns rest
termination_by cs => cs.length
decreasing_by
  · have hle : ∀ (p : Char → Bool) (l : List Char), (l.dropWhile p).length ≤ l.length := by
      intro p l
      induction l with
      | nil => simp
      | cons a l ih =>
        rw [List.dropWhile_cons]
        split_ifs
        · exact le_trans ih (by simp)
        · simp
    calc (rest.dropWhile Char.isDigit).length
        ≤ rest.length := hle _ _
      _ < (c :: rest).length := by simp [List.length_cons]
  · simp [List.length_cons]

def parseFeetInchesChars (note : List Char) : List Char × List Char :=
  if jsTrim note = [] then ([], [])
  else
    match aposMatch (jsTrim note) with
    | some (fe, ic) => (fe, ic)
    | none =>
      match ftMatch (jsTrim note) with
      | some (fe, ic) => (fe, ic)
      | none =>
        match digitRuns (jsTrim note) with
        | fe :: ic :: _ => (fe, ic)
        | [fe] => (fe, [])
        | [] => ([], [])

def parseFeetInches (note : String) : String × String :=
  (⟨(parseFeetInchesChars note.data).1⟩, ⟨(parseFeetInchesChars note.data).2⟩)

def digitsVal (cs : List Char) : ℕ := cs.foldl (fun a c => 10 * a + (c.toNat - 48)) 0

def jsDigitsToNat (cs : List Char) : Option ℕ :=
  if cs ≠ [] ∧ cs.all Char.isDigit then some (digitsVal cs) else none

def formatFeetInchesChars (feetRaw inchesRaw : List Char) : List Char :=
  if jsTrim feetRaw = [] ∧ jsTrim inchesRaw = [] then []
  else
    match (if jsTrim feetRaw = [] then some 0 else jsDigitsToNat (jsTrim feetRaw)),
        (if jsTrim inchesRaw = [] then some 0 else jsDigitsToNat (jsTrim inchesRaw)) with
    | some f, some i =>
      natToChars ((f * 12 + i) / 12) ++
        aposChar :: ' ' :: (natToChars ((f * 12 + i) % 12) ++ [quoteChar])
    | _, _ => []

def formatFeetInches (feetRaw inchesRaw : String) : String :=
  ⟨formatFeetInchesChars feetRaw.data inchesRaw.data⟩

/-! ### Lemmas and claim theorems -/

/-! ### Arithmetic helpers for floor division by 18 -/
lemma fdiv18_natCast (m : ℕ) : Int.fdiv (m : ℤ) 18 = ((m / 18 : ℕ) : ℤ) := by
  cases m <;> rfl

lemma fdiv18_eq_zero {a : ℤ} (h0 : 0 ≤ a) (h : a < 18) : a.fdiv 18 = 0 := by
  lift a to ℕ using h0
  rw [fdiv18_natCast]
  have : a < 18 := by exact_mod_cast h
  simp [Nat.div_eq_of_lt this]

lemma fdiv18_add_eighteen {a : ℤ} (h0 : 0 ≤ a) : (a + 18).fdiv 18 = a.fdiv 18 + 1 := by
  lift a to ℕ using h0
  have h : (a : ℤ) + 18 = ((a + 18 : ℕ) : ℤ) := by push_cast; ring
  rw [h, fdiv18_natCast, fdiv18_natCast, Nat.add_div_right a (by norm_num)]
  push_cast
  ring

/-! ### C1: specification of `strokesForHole` -/
/-- C1: `strokesForHole(holeStrokeIndex, totalStrokes)` returns 0 whenever the
stroke index is outside `[1,18]`, or `⌊totalStrokes⌋ ≤ 0`, or
`⌊totalStrokes⌋ < holeStrokeIndex`; otherwise it returns
`1 + ⌊(⌊totalStrokes⌋ - holeStrokeIndex) / 18⌋`.  In particular, for an index
and a total both in `[1,18]` the result is 1 iff the total is at least the
index (else 0), and for `totalStrokes = 18 + idx` the result is 2. -/
theorem strokesForHole_spec (idx : ℤ) (t : ℚ) :
    (strokesForHole idx t =
      if (idx < 1 ∨ 18 < idx) ∨ ⌊t⌋ ≤ 0 ∨ ⌊t⌋ < idx then 0
      else 1 + Int.fdiv (⌊t⌋ - idx) 18) ∧
    (1 ≤ idx → idx ≤ 18 → 1 ≤ t → t ≤ 18 →
      strokesForHole idx t = if (idx : ℚ) ≤ t then 1 else 0) ∧
    (1 ≤ idx → idx ≤ 18 → strokesForHole idx ((18 + idx : ℤ) : ℚ) = 2) := by
  refine ⟨?_, ?_, ?_⟩
  · show strokesForHoleInt idx ⌊t⌋ = _
    generalize ⌊t⌋ = s
    unfold strokesForHoleInt
    split_ifs <;> first | rfl | omega
  · intro h1 h18 ht1 ht18
    have hs1 : 1 ≤ ⌊t⌋ := Int.le_floor.mpr (by exact_mod_cast ht1)
    have hs18 : ⌊t⌋ ≤ 18 := by
      have h := Int.floor_le_floor ht18
      simpa using h
    by_cases hc : (idx : ℚ) ≤ t
    · have hsi : idx ≤ ⌊t⌋ := Int.le_floor.mpr hc
      rw [if_pos hc]
      show strokesForHoleInt idx ⌊t⌋ = 1
      unfold strokesForHoleInt
      rw [if_neg (by omega), if_neg (by omega), if_neg (by omega),
        fdiv18_eq_zero (by omega) (by omega)]
      norm_num
    · have hsi : ⌊t⌋ < idx := Int.floor_lt.mpr (by push_neg at hc; exact hc)
      rw [if_neg hc]
      show strokesForHoleInt idx ⌊t⌋ = 0
      unfold strokesForHoleInt
      split_ifs <;> first | rfl | omega
  · intro h1 h18
    have hf : ⌊((18 + idx : ℤ) : ℚ)⌋ = 18 + idx := Int.floor_intCast _
    show strokesForHoleInt idx ⌊((18 + idx : ℤ) : ℚ)⌋ = 2
    rw [hf]
    unfold strokesForHoleInt
    rw [if_neg (by omega), if_neg (by omega), if_neg (by omega)]
    have h : (18 + idx - idx : ℤ) = 18 := by ring
    rw [h]
    decide

/-- Witness for C1 at `idx = 5`: `strokesForHole 5 7 = 1` and
`strokesForHole 5 23 = 2`. -/
theorem strokesForHole_spec_witness :
    strokesForHole 5 7 = 1 ∧ strokesForHole 5 ((18 + 5 : ℤ) : ℚ) = 2 := by
  constructor
  · have h := (strokesForHole_spec 5 7).2.1 (by decide) (by decide) (by norm_num) (by norm_num)
    rw [h, if_pos (by norm_num)]
  · exact (strokesForHole_spec 5 ((18 + 5 : ℤ) : ℚ)).2.2 (by decide) (by decide)

/-! ### C2: `computeNetRunningTotal` without a stroke-index table -/
/-- C2: with no valid stroke-index table, `computeNetRunningTotal` returns
`gross - ⌊totalStrokes⌋` for a complete round and exactly the gross sum for an
incomplete round; a complete all-4s round with `totalStrokes = 10` yields 62. -/
theorem computeNetRunningTotal_no_table (scores : List (Option ℤ)) (t : ℚ) :
    (computeNetRunningTotal scores none t =
      if isCompleteRound scores then sum scores - ⌊t⌋ else sum scores) ∧
    (∀ h : List ℤ, h.length ≠ 18 →
      computeNetRunningTotal scores (some h) t =
        if isCompleteRound scores then sum scores - ⌊t⌋ else sum scores) ∧
    computeNetRunningTotal (List.replicate 18 (some 4)) none 10 = 62 := by
  refine ⟨rfl, ?_, by decide⟩
  intro h hlen
  have e : computeNetRunningTotal scores (some h) t =
      if h.length = HOLE_COUNT then sum scores - strokesUsed scores h t
      else if isCompleteRound scores then sum scores - ⌊t⌋ else sum scores := rfl
  rw [e, if_neg (by simpa [HOLE_COUNT] using hlen)]

/-- Witness for C2 at a concrete invalid (empty) stroke-index table. -/
theorem computeNetRunningTotal_no_table_witness :
    computeNetRunningTotal (List.replicate 18 (some 4)) (some []) 10 = 62 := by
  have h := (computeNetRunningTotal_no_table (List.replicate 18 (some 4)) 10).2.1 []
    (by decide)
  exact h.trans (by decide)

/-! ### Sum and filter helpers -/
lemma foldl_sum_acc (l : List (Option ℤ)) (acc : ℤ) :
    l.foldl (fun acc v => match v with | some n => acc + n | none => acc) acc
      = acc + sum l := by
  induction l generalizing acc with
  | nil => simp [sum]
  | cons v l ih =>
    cases v with
    | none =>
      show l.foldl _ acc = acc + sum (none :: l)
      rw [ih]
      have h : sum (none :: l) = sum l := by
        show l.foldl _ 0 = _
        rfl
      rw [h]
    | some n =>
      show l.foldl _ (acc + n) = acc + sum (some n :: l)
      rw [ih]
      have h : sum (some n :: l) = n + sum l := by
        show l.foldl _ (0 + n) = _
        rw [ih]
        ring
      rw [h]
      ring

lemma sum_cons (v : Option ℤ) (l : List (Option ℤ)) :
    sum (v :: l) = v.getD 0 + sum l := by
  cases v with
  | none =>
    show l.foldl _ 0 = _
    rw [foldl_sum_acc]
    simp
  | some n =>
    show l.foldl _ (0 + n) = _
    rw [foldl_sum_acc]
    simp [add_comm]

lemma sum_set_none (l : List (Option ℤ)) (i : ℕ) (v : ℤ) (h : l.getD i none = some v) :
    sum l = v + sum (l.set i none) := by
  induction l generalizing i with
  | nil => simp [List.getD] at h
  | cons a l ih =>
    cases i with
    | zero =>
      rw [List.getD_cons_zero] at h
      subst h
      rw [List.set_cons_zero, sum_cons, sum_cons]
      simp [add_comm]
    | succ j =>
      rw [List.getD_cons_succ] at h
      rw [List.set_cons_succ, sum_cons, sum_cons, ih j h]
      ring

lemma sum_map_filter_eq (l : List ℕ) (p : ℕ → Bool) (f : ℕ → ℤ) :
    ((l.filter p).map f).sum = (l.map (fun i => if p i then f i else 0)).sum := by
  induction l with
  | nil => simp
  | cons a l ih =>
    by_cases h : p a
    · rw [List.filter_cons_of_pos h]
      simp [h, ih]
    · rw [List.filter_cons_of_neg (by simpa using h)]
      simp [h, ih]

lemma strokesUsed_eq_allocSumScored (scores : List (Option ℤ)) (table : List ℤ) (t : ℚ) :
    strokesUsed scores table t = allocSumScored scores table t := by
  unfold strokesUsed allocSumScored
  rw [sum_map_filter_eq]
  congr 1
  apply List.map_congr_left
  intro i _
  cases hv : scores.getD i none with
  | none => simp [isScoredNonneg, hv]
  | some v =>
    by_cases h0 : 0 ≤ v
    · simp [isScoredNonneg, hv, h0]
    · simp [isScoredNonneg, hv, h0]

/-- C3 (corrected): with a valid 18-entry stroke-index table,
`computeNetRunningTotal` returns the gross sum minus the sum of
`strokesForHole(table[i], totalStrokes)` over every hole whose score is a
*non-negative* number (not, as claimed, over every non-null hole: a hole with
a negative numeric score is skipped by the allocation loop). -/
theorem computeNetRunningTotal_table (scores : List (Option ℤ)) (table : List ℤ) (t : ℚ)
    (hlen : table.length = 18) :
    computeNetRunningTotal scores (some table) t =
      sum scores - allocSumScored scores table t := by
  have h : computeNetRunningTotal scores (some table) t =
      if table.length = HOLE_COUNT then sum scores - strokesUsed scores table t
      else if isCompleteRound scores then sum scores - ⌊t⌋ else sum scores := rfl
  rw [h, if_pos (show table.length = HOLE_COUNT by simpa [HOLE_COUNT] using hlen),
    strokesUsed_eq_allocSumScored]

/-- Counterexample to C3 as stated: on `negScores` with table `[1..18]` and
`totalStrokes = 18`, the code returns `-1` (it skips the negative hole in the
allocation loop), while "gross minus the sum over every non-null hole" would
be `-1 - strokesForHole(1, 18) = -2`. -/
theorem computeNetRunningTotal_nonnull_counterexample :
    computeNetRunningTotal negScores (some stdStrokeIndex) 18 = -1 ∧
    sum negScores - allocSumNonnull negScores stdStrokeIndex 18 = -2 ∧
    computeNetRunningTotal negScores (some stdStrokeIndex) 18 ≠
      sum negScores - allocSumNonnull negScores stdStrokeIndex 18 := by
  refine ⟨by decide, by decide, by decide⟩

/-- Witness for the corrected C3 on a concrete complete round. -/
theorem computeNetRunningTotal_table_witness :
    computeNetRunningTotal (List.replicate 18 (some 4)) (some stdStrokeIndex) 18 =
      sum (List.replicate 18 (some 4)) -
        allocSumScored (List.replicate 18 (some 4)) stdStrokeIndex 18 :=
  computeNetRunningTotal_table _ _ _ (by decide)

/-! ### C10: a negative score entry blocks completion but not the gross sum -/
/-- C10: an 18-entry scores array with a negative numeric entry is not a
complete round, so `computeNetToPar` is `null` and `applyCharityAtEnd` leaves
`net` unchanged for it, yet the negative entry still participates in the gross
sum used by `computeNetRunningTotal`. -/
theorem negative_entry_effects (scores : List (Option ℤ)) (i : ℕ) (v : ℤ)
    (hlen : scores.length = 18) (hv : scores.getD i none = some v) (hneg : v < 0) :
    isCompleteRound scores = false ∧
    (∀ pars hcps t, computeNetToPar scores pars hcps t = none) ∧
    (∀ net c, applyCharityAtEnd net scores c = net) ∧
    sum scores = v + sum (scores.set i none) := by
  have hmem : some v ∈ scores := by
    have hget : scores.get? i = some (some v) := by
      have h := hv
      rw [List.getD_eq_getElem?_getD] at h
      cases hg : scores[i]? with
      | none => rw [hg] at h; simp at h
      | some w =>
        rw [hg] at h
        simp at h
        rw [← List.get?_eq_getElem?] at hg
        rw [hg, h]
    exact List.get?_mem hget
  have hfalse : isCompleteRound scores = false := by
    unfold isCompleteRound
    have hall : scores.all (fun v => match v with | some n => decide (0 ≤ n) | none => false)
        = false := by
      rw [List.all_eq_false]
      exact ⟨some v, hmem, by simp; omega⟩
    simp [hall]
  refine ⟨hfalse, ?_, ?_, sum_set_none scores i v hv⟩
  · intro pars hcps t
    unfold computeNetToPar
    rw [if_pos hfalse]
  · intro net c
    show (if ⌊c⌋ ≤ 0 then net else if isCompleteRound scores then net - ⌊c⌋ else net) = net
    by_cases h1 : ⌊c⌋ ≤ 0
    · rw [if_pos h1]
    · rw [if_neg h1, if_neg (by simp [hfalse])]

/-- Witness for C10 at a concrete array with entry `-1` at hole 1. -/
theorem negative_entry_effects_witness :
    isCompleteRound (some (-1) :: List.replicate 17 (some 4)) = false ∧
    computeNetToPar (some (-1) :: List.replicate 17 (some 4)) (List.replicate 18 4) none 5
      = none ∧
    applyCharityAtEnd 70 (some (-1) :: List.replicate 17 (some 4)) 3 = 70 ∧
    sum (some (-1) :: List.replicate 17 (some 4)) =
      -1 + sum ((some (-1) :: List.replicate 17 (some 4)).set 0 none) := by
  have h := negative_entry_effects (some (-1) :: List.replicate 17 (some 4)) 0 (-1)
    (by decide) (by decide) (by decide)
  exact ⟨h.1, h.2.1 _ _ _, h.2.2.1 _ _, h.2.2.2⟩

/-! ### C4 theorems -/
lemma getD_map_range {β : Type} (n i : ℕ) (f : ℕ → β) (d : β) (hi : i < n) :
    ((List.range n).map f).getD i d = f i := by
  rw [List.getD_eq_getElem?_getD, List.getElem?_map, List.getElem?_range hi]
  rfl

/-- C4 (corrected): on reading a stored score table, a player's row always has
18 entries, and an entry is the number `n` iff the stored value was the
*finite* number `n` — so any non-finite (or non-numeric) value is coerced to
null, but a negative finite value is preserved as-is. -/
theorem coerceScoreTable_spec (players : List String)
    (input : String → Option (List (Option JSNum))) (p : String) (hp : p ∈ players)
    (arr : List (Option JSNum)) (i : ℕ) (hi : i < 18) (n : ℤ) :
    (p, coerceScoreRow (input p)) ∈ coerceScoreTable players input ∧
    (coerceScoreRow (input p)).length = 18 ∧
    ((coerceScoreRow (some arr)).getD i none = some n ↔
      arr.getD i none = some (JSNum.fin n)) := by
  refine ⟨List.mem_map_of_mem _ hp, ?_, ?_⟩
  · cases h : input p with
    | none => simp [coerceScoreRow, HOLE_COUNT]
    | some arr' => simp [coerceScoreRow, HOLE_COUNT]
  · have hred : (coerceScoreRow (some arr)).getD i none
        = coerceScoreEntry (arr.getD i none) := by
      unfold coerceScoreRow
      exact getD_map_range HOLE_COUNT i _ none (by simpa [HOLE_COUNT] using hi)
    rw [hred]
    cases hv : arr.getD i none with
    | none => simp [coerceScoreEntry]
    | some j =>
      cases j with
      | fin v => simp [coerceScoreEntry]
      | nan => simp [coerceScoreEntry]
      | inf => simp [coerceScoreEntry]
      | neginf => simp [coerceScoreEntry]

/-- Witness for the corrected C4 at a concrete one-player table. -/
theorem coerceScoreTable_spec_witness :
    ("A", coerceScoreRow (negInput "A")) ∈ coerceScoreTable ["A"] negInput ∧
    (coerceScoreRow (negInput "A")).length = 18 ∧
    ((coerceScoreRow (some [some (JSNum.fin (-3))])).getD 0 none = some (-3) ↔
      ([some (JSNum.fin (-3))] : List (Option JSNum)).getD 0 none
        = some (JSNum.fin (-3))) :=
  coerceScoreTable_spec ["A"] negInput "A" (List.mem_singleton_self _)
    [some (JSNum.fin (-3))] 0 (by norm_num) (-3)

/-- Counterexample to C4 as stated: reading a table whose stored entry is the
negative finite number `-3` yields an array still containing `-3` — the
negative value is *not* coerced to null, refuting the claimed invariant that
the engine's arrays contain only non-negative numbers or null. -/
theorem coerceScoreTable_negative_counterexample :
    coerceScoreTable ["A"] negInput = [("A", some (-3) :: List.replicate 17 none)] ∧
    ¬ scoreTableNonneg (coerceScoreTable ["A"] negInput) := by
  have heq : coerceScoreTable ["A"] negInput
      = [("A", some (-3) :: List.replicate 17 none)] := by decide
  refine ⟨heq, ?_⟩
  intro h
  have hm := h ("A", some (-3) :: List.replicate 17 none)
    (by rw [heq]; exact List.mem_singleton_self _)
    (some (-3)) (List.mem_cons_self _ _) (-3) rfl
  exact absurd hm (by norm_num)

/-! ### C5: nullability of `computeNetToPar` -/
/-- C5: `computeNetToPar` returns `null` iff the round is not complete or the
par table is not a valid 18-entry array; in particular it is `null` whenever
the round is incomplete, regardless of the other inputs. -/
theorem computeNetToPar_none_iff (scores : List (Option ℤ)) (pars : List ℤ)
    (hcps : Option (List ℤ)) (t : ℚ) :
    computeNetToPar scores pars hcps t = none ↔
      (isCompleteRound scores = false ∨ pars.length ≠ 18) := by
  unfold computeNetToPar
  by_cases h1 : isCompleteRound scores = false
  · simp [h1]
  · rw [if_neg h1]
    by_cases h2 : pars.length ≠ HOLE_COUNT
    · simp only [if_pos h2]
      simp [HOLE_COUNT] at h2
      simp [h2]
    · rw [if_neg h2]
      simp only [HOLE_COUNT] at h2
      cases hcps with
      | none => simp [h1, h2]
      | some h => by_cases h3 : h.length = HOLE_COUNT <;> simp [h3, h1, h2]

/-! ### C6: a permutation stroke-index table allocates exactly `⌊totalStrokes⌋` -/
lemma strokesForHoleInt_shift (k s : ℤ) (hk1 : 1 ≤ k) (hk18 : k ≤ 18) (hs : 18 ≤ s) :
    strokesForHoleInt k s = 1 + strokesForHoleInt k (s - 18) := by
  unfold strokesForHoleInt
  split_ifs with h1 h2 h3 h4 h5 <;> try omega
  · rw [fdiv18_eq_zero (by omega) (by omega)]
  · rw [fdiv18_eq_zero (by omega) (by omega)]
  · have he : s - k = (s - 18 - k) + 18 := by ring
    rw [he, fdiv18_add_eighteen (by omega)]
    ring

lemma map_shift (l : List ℤ) (hl : ∀ k ∈ l, 1 ≤ k ∧ k ≤ 18) (s : ℤ) (hs : 18 ≤ s) :
    (l.map (fun k => strokesForHoleInt k s)).sum
      = l.length + (l.map (fun k => strokesForHoleInt k (s - 18))).sum := by
  induction l with
  | nil => simp
  | cons a l ih =>
    have ha := hl a (List.mem_cons_self a l)
    have ht := ih (fun k hk => hl k (List.mem_cons_of_mem a hk))
    simp only [List.map_cons, List.sum_cons, List.length_cons,
      strokesForHoleInt_shift a s ha.1 ha.2 hs, ht]
    push_cast
    ring

/-- Hermite-style identity: over the stroke indexes `1..18`, the closed-form
allocation of `strokesForHoleInt` distributes a non-negative total exactly. -/
lemma sum_strokes_std (n : ℕ) :
    ((stdStrokeIndex.map (fun k => strokesForHoleInt k (n : ℤ))).sum) = n := by
  induction n using Nat.strong_induction_on with
  | _ n ih =>
    by_cases h : n < 18
    · interval_cases n <;> decide
    · have h18 : 18 ≤ n := by omega
      have ihm := ih (n - 18) (by omega)
      rw [map_shift stdStrokeIndex (by decide) _ (by exact_mod_cast h18)]
      have hcast : ((n : ℤ)) - 18 = ((n - 18 : ℕ) : ℤ) := by omega
      rw [hcast, ihm]
      have hlen : (stdStrokeIndex.length : ℤ) = 18 := by decide
      rw [hlen]
      omega

lemma map_range_getD {α β : Type} (l : List α) (d : α) (f : α → β) :
    (List.range l.length).map (fun i => f (l.getD i d)) = l.map f := by
  induction l with
  | nil => simp
  | cons a l ih =>
    have hc : ((fun i => f ((a :: l).getD i d)) ∘ Nat.succ) = fun i => f (l.getD i d) := by
      funext i
      simp
    rw [List.length_cons, List.range_succ_eq_map, List.map_cons, List.map_map, hc, ih,
      List.getD_cons_zero, List.map_cons]

lemma sum_eq_map_getD (l : List (Option ℤ)) : sum l = (l.map (fun v => v.getD 0)).sum := by
  induction l with
  | nil => rfl
  | cons v l ih => rw [sum_cons, List.map_cons, List.sum_cons, ih]

lemma sum_map_sub (l : List ℕ) (f g : ℕ → ℤ) :
    (l.map (fun i => f i - g i)).sum = (l.map f).sum - (l.map g).sum := by
  induction l with
  | nil => simp
  | cons a l ih =>
    simp only [List.map_cons, List.sum_cons, ih]
    ring

lemma isCompleteRound_length {scores : List (Option ℤ)}
    (h : isCompleteRound scores = true) : scores.length = 18 := by
  unfold isCompleteRound at h
  simp only [Bool.and_eq_true, beq_iff_eq] at h
  simpa [HOLE_COUNT] using h.1

lemma netTotalPerHole_eq (scores : List (Option ℤ)) (table : List ℤ) (t : ℚ)
    (hs : scores.length = 18) (htab : table.length = 18) :
    netTotalPerHole scores table t
      = sum scores - (table.map (fun k => strokesForHole k t)).sum := by
  unfold netTotalPerHole
  rw [sum_map_sub]
  congr 1
  · have h := map_range_getD scores none (fun v => v.getD 0)
    rw [hs] at h
    show ((List.range HOLE_COUNT).map (fun i => (scores.getD i none).getD 0)).sum = _
    rw [show HOLE_COUNT = 18 from rfl, h, ← sum_eq_map_getD]
  · have h := map_range_getD table 0 (fun k => strokesForHole k t)
    rw [htab] at h
    show ((List.range HOLE_COUNT).map (fun i => strokesForHole (table.getD i 0) t)).sum = _
    rw [show HOLE_COUNT = 18 from rfl, h]

lemma sum_strokes_perm (table : List ℤ) (t : ℚ) (hperm : table.Perm stdStrokeIndex)
    (ht : 0 ≤ ⌊t⌋) :
    (table.map (fun k => strokesForHole k t)).sum = ⌊t⌋ := by
  rw [(hperm.map _).sum_eq]
  have h := sum_strokes_std ⌊t⌋.toNat
  rw [Int.toNat_of_nonneg ht] at h
  exact h

lemma computeNetToPar_table_eq (scores : List (Option ℤ)) (pars table : List ℤ) (t : ℚ)
    (hc : isCompleteRound scores = true) (hp : pars.length = 18)
    (htab : table.length = 18) :
    computeNetToPar scores pars (some table) t
      = some (netTotalPerHole scores table t - sumNumbers pars) := by
  unfold computeNetToPar
  rw [if_neg (by simp [hc]), if_neg (by simp [HOLE_COUNT, hp])]
  dsimp only
  rw [if_pos (by simp [HOLE_COUNT, htab])]

lemma computeNetToPar_fallback_eq (scores : List (Option ℤ)) (pars : List ℤ) (t : ℚ)
    (hc : isCompleteRound scores = true) (hp : pars.length = 18) :
    computeNetToPar scores pars none t = some (sum scores - ⌊t⌋ - sumNumbers pars) := by
  unfold computeNetToPar
  rw [if_neg (by simp [hc]), if_neg (by simp [HOLE_COUNT, hp])]

/-- C6: for a complete round, a valid 18-entry par table, `⌊totalStrokes⌋ ≥ 0`
and a stroke-index table that is a permutation of `[1..18]`, the per-hole
allocations sum to exactly `⌊totalStrokes⌋`, so the per-hole path of
`computeNetToPar` agrees with the no-table fallback: both are
`gross - ⌊totalStrokes⌋ - totalPar`. -/
theorem computeNetToPar_perm_table (scores : List (Option ℤ)) (pars table : List ℤ)
    (t : ℚ) (hc : isCompleteRound scores = true) (hp : pars.length = 18)
    (ht : 0 ≤ ⌊t⌋) (hperm : table.Perm stdStrokeIndex) :
    (table.map (fun k => strokesForHole k t)).sum = ⌊t⌋ ∧
    computeNetToPar scores pars (some table) t = computeNetToPar scores pars none t ∧
    computeNetToPar scores pars (some table) t
      = some (sum scores - ⌊t⌋ - sumNumbers pars) := by
  have htab : table.length = 18 :=
    hperm.length_eq.trans (by decide : stdStrokeIndex.length = 18)
  have hs := isCompleteRound_length hc
  have hsum := sum_strokes_perm table t hperm ht
  have hval : computeNetToPar scores pars (some table) t
      = some (sum scores - ⌊t⌋ - sumNumbers pars) := by
    rw [computeNetToPar_table_eq scores pars table t hc hp htab,
      netTotalPerHole_eq scores table t hs htab, hsum]
  exact ⟨hsum, hval.trans (computeNetToPar_fallback_eq scores pars t hc hp).symm, hval⟩

/-- Witness for C6: all-4 pars (total 72), a complete all-4s round, the table
`[1..18]` and `totalStrokes = 18` allocate exactly 18 strokes and give
net-to-par `-18`. -/
theorem computeNetToPar_perm_table_witness :
    computeNetToPar (List.replicate 18 (some 4)) (List.replicate 18 4)
        (some stdStrokeIndex) 18 = some (-18) ∧
    (stdStrokeIndex.map (fun k => strokesForHole k 18)).sum = 18 := by
  have h := computeNetToPar_perm_table (List.replicate 18 (some 4)) (List.replicate 18 4)
    stdStrokeIndex 18 (by decide) (by decide) (by decide) (List.Perm.refl _)
  constructor
  · rw [h.2.2]
    decide
  · have h1 := h.1
    rw [show ⌊(18 : ℚ)⌋ = 18 from by decide] at h1
    exact h1

/-! ### C7: `applyCharityAtEnd` -/
/-- C7: `applyCharityAtEnd(net, scores, penaltyStrokes)` subtracts
`⌊penaltyStrokes⌋` from `net` exactly when `⌊penaltyStrokes⌋ > 0` and the
round is complete; otherwise (non-positive floored penalty, or an incomplete
round even with a positive penalty) it returns `net` unchanged. -/
theorem applyCharityAtEnd_spec (net : ℤ) (scores : List (Option ℤ)) (c : ℚ) :
    applyCharityAtEnd net scores c =
      if 0 < ⌊c⌋ ∧ isCompleteRound scores then net - ⌊c⌋ else net := by
  show (if ⌊c⌋ ≤ 0 then net else if isCompleteRound scores then net - ⌊c⌋ else net) = _
  by_cases h1 : ⌊c⌋ ≤ 0
  · rw [if_pos h1, if_neg]
    exact fun hh => absurd hh.1 (by omega)
  · rw [if_neg h1]
    by_cases h2 : isCompleteRound scores
    · rw [if_pos h2, if_pos ⟨by omega, h2⟩]
    · rw [if_neg h2, if_neg (fun hh => h2 hh.2)]

lemma rowLE_tie {a b : LeaderRow} (h : rowLE a b) : tieRule a b := by
  intro hnet hgross
  unfold rowLE at h
  rcases h with h | ⟨e, h⟩
  · exact absurd h (by rw [hnet]; exact lt_irrefl _)
  · rcases h with h | ⟨e2, h⟩
    · exact absurd h (by rw [hgross]; exact lt_irrefl _)
    · exact h

/-- C8: each day's leaderboard is a permutation of the built rows, sorted
ascending by net total, then gross total, then player name; consequently any
two rows tied on net and gross appear in lexicographic name order, and the
result is a deterministic function of the inputs. -/
theorem leaderboard_sorted (players1 players2 : List String)
    (scoresOf1 scoresOf2 : String → List (Option ℤ))
    (handicaps day2Adjustments charityStrokes treeStrokes : String → ℚ)
    (teeChoices1 teeChoices2 : String → Option TeeKey)
    (pars1 hcps1 pars2 hcps2 : Option (List ℤ)) :
    List.Sorted rowLE (day1Leaderboard players1 scoresOf1 handicaps charityStrokes
        treeStrokes teeChoices1 pars1 hcps1) ∧
    (day1Leaderboard players1 scoresOf1 handicaps charityStrokes treeStrokes
        teeChoices1 pars1 hcps1).Perm
      (players1.map (day1Row scoresOf1 handicaps charityStrokes treeStrokes
        teeChoices1 pars1 hcps1)) ∧
    List.Pairwise tieRule (day1Leaderboard players1 scoresOf1 handicaps charityStrokes
        treeStrokes teeChoices1 pars1 hcps1) ∧
    List.Sorted rowLE (day2Leaderboard players2 scoresOf2 handicaps day2Adjustments
        charityStrokes treeStrokes teeChoices2 pars2 hcps2) ∧
    (day2Leaderboard players2 scoresOf2 handicaps day2Adjustments charityStrokes
        treeStrokes teeChoices2 pars2 hcps2).Perm
      (players2.map (day2Row scoresOf2 handicaps day2Adjustments charityStrokes
        treeStrokes teeChoices2 pars2 hcps2)) ∧
    List.Pairwise tieRule (day2Leaderboard players2 scoresOf2 handicaps day2Adjustments
        charityStrokes treeStrokes teeChoices2 pars2 hcps2) := by
  have hs1 := List.sorted_insertionSort rowLE (players1.map (day1Row scoresOf1 handicaps
    charityStrokes treeStrokes teeChoices1 pars1 hcps1))
  have hs2 := List.sorted_insertionSort rowLE (players2.map (day2Row scoresOf2 handicaps
    day2Adjustments charityStrokes treeStrokes teeChoices2 pars2 hcps2))
  exact ⟨hs1, List.perm_insertionSort rowLE _, hs1.imp (fun h => rowLE_tie h),
    hs2, List.perm_insertionSort rowLE _, hs2.imp (fun h => rowLE_tie h)⟩

lemma natToCharsAux_irrel (n : ℕ) : ∀ f : ℕ, n < f → natToCharsAux f n = natToChars n := by
  induction n using Nat.strong_induction_on with
  | _ n ih =>
    intro f hf
    match f, hf with
    | f' + 1, _ =>
      show (if n < 10 then [digitChar n] else natToCharsAux f' (n / 10) ++ [digitChar (n % 10)])
          = natToChars n
      by_cases h : n < 10
      · rw [if_pos h]
        show _ = natToCharsAux (n + 1) n
        rw [show natToCharsAux (n + 1) n
            = if n < 10 then [digitChar n] else natToCharsAux n (n / 10) ++ [digitChar (n % 10)]
          from rfl, if_pos h]
      · rw [if_neg h]
        have hd : n / 10 < n := Nat.div_lt_self (by omega) (by norm_num)
        rw [ih (n / 10) hd f' (by omega)]
        show _ = natToCharsAux (n + 1) n
        rw [show natToCharsAux (n + 1) n
            = if n < 10 then [digitChar n] else natToCharsAux n (n / 10) ++ [digitChar (n % 10)]
          from rfl, if_neg h, ih (n / 10) hd n (by omega)]

lemma natToChars_eq (n : ℕ) :
    natToChars n = if n < 10 then [digitChar n]
      else natToChars (n / 10) ++ [digitChar (n % 10)] := by
  show natToCharsAux (n + 1) n = _
  rw [show natToCharsAux (n + 1) n
      = if n < 10 then [digitChar n] else natToCharsAux n (n / 10) ++ [digitChar (n % 10)]
    from rfl]
  by_cases h : n < 10
  · rw [if_pos h, if_pos h]
  · rw [if_neg h, if_neg h,
      natToCharsAux_irrel (n / 10) n (by omega)]

lemma digit_not_space (c : Char) (h : c.isDigit = true) : jsIsSpace c = false := by
  cases hjs : jsIsSpace c with
  | false => rfl
  | true =>
    exfalso
    unfold jsIsSpace at hjs
    simp [Char.isWhitespace] at hjs
    rcases hjs with ((h1 | h1) | h1) | h1 <;> (subst h1; exact absurd h (by decide))

lemma digitChar_isDigit (n : ℕ) (h : n < 10) : (digitChar n).isDigit = true := by
  interval_cases n <;> decide

lemma digitChar_toNat (n : ℕ) (h : n < 10) : (digitChar n).toNat = 48 + n := by
  interval_cases n <;> decide

lemma natToChars_ne_nil (n : ℕ) : natToChars n ≠ [] := by
  rw [natToChars_eq]
  split_ifs <;> simp

lemma natToChars_all_digits (n : ℕ) : ∀ c ∈ natToChars n, c.isDigit = true := by
  induction n using Nat.strong_induction_on with
  | _ n ih =>
    rw [natToChars_eq]
    by_cases h : n < 10
    · rw [if_pos h]
      intro c hc
      simp only [List.mem_singleton] at hc
      subst hc
      exact digitChar_isDigit n h
    · rw [if_neg h]
      intro c hc
      rcases List.mem_append.mp hc with h1 | h1
      · exact ih (n / 10) (Nat.div_lt_self (by omega) (by norm_num)) c h1
      · simp only [List.mem_singleton] at h1
        subst h1
        exact digitChar_isDigit _ (Nat.mod_lt _ (by norm_num))

lemma digitsVal_append (xs : List Char) (c : Char) :
    digitsVal (xs ++ [c]) = 10 * digitsVal xs + (c.toNat - 48) := by
  unfold digitsVal
  rw [List.foldl_append]
  rfl

lemma digitsVal_natToChars (n : ℕ) : digitsVal (natToChars n) = n := by
  induction n using Nat.strong_induction_on with
  | _ n ih =>
    rw [natToChars_eq]
    by_cases h : n < 10
    · rw [if_pos h]
      have hv : digitsVal [digitChar n] = 10 * 0 + ((digitChar n).toNat - 48) := rfl
      rw [hv, digitChar_toNat n h]
      omega
    · rw [if_neg h, digitsVal_append,
        ih (n / 10) (Nat.div_lt_self (by omega) (by norm_num)),
        digitChar_toNat (n % 10) (Nat.mod_lt _ (by norm_num))]
      omega

lemma jsDigitsToNat_natToChars (n : ℕ) : jsDigitsToNat (natToChars n) = some n := by
  unfold jsDigitsToNat
  rw [if_pos ⟨natToChars_ne_nil n, List.all_eq_true.mpr (natToChars_all_digits n)⟩,
    digitsVal_natToChars]

lemma dropWhile_eq_self_of_head {α : Type} (p : α → Bool) (cs : List α)
    (h : ∀ c, cs.head? = some c → p c = false) : cs.dropWhile p = cs := by
  cases cs with
  | nil => rfl
  | cons a l =>
    rw [List.dropWhile_cons]
    simp [h a rfl]

lemma takeWhile_append_all {α : Type} (p : α → Bool) (xs ys : List α)
    (h : ∀ c ∈ xs, p c = true) :
    (xs ++ ys).takeWhile p = xs ++ ys.takeWhile p := by
  induction xs with
  | nil => simp
  | cons a l ih =>
    rw [List.cons_append, List.takeWhile_cons, if_pos (h a (List.mem_cons_self _ _)),
      ih (fun c hc => h c (List.mem_cons_of_mem _ hc)), List.cons_append]

lemma dropWhile_append_all {α : Type} (p : α → Bool) (xs ys : List α)
    (h : ∀ c ∈ xs, p c = true) :
    (xs ++ ys).dropWhile p = ys.dropWhile p := by
  induction xs with
  | nil => simp
  | cons a l ih =>
    rw [List.cons_append, List.dropWhile_cons, if_pos (h a (List.mem_cons_self _ _)),
      ih (fun c hc => h c (List.mem_cons_of_mem _ hc))]

lemma jsTrim_eq_self_of_ends (cs : List Char)
    (h1 : ∀ c, cs.head? = some c → jsIsSpace c = false)
    (h2 : ∀ c, cs.reverse.head? = some c → jsIsSpace c = false) :
    jsTrim cs = cs := by
  unfold jsTrim
  rw [dropWhile_eq_self_of_head _ _ h1, dropWhile_eq_self_of_head _ _ h2,
    List.reverse_reverse]

lemma jsTrim_all_not_space (cs : List Char) (h : ∀ c ∈ cs, jsIsSpace c = false) :
    jsTrim cs = cs := by
  apply jsTrim_eq_self_of_ends
  · intro c hc
    exact h c (List.mem_of_mem_head? (by rw [hc]; exact rfl))
  · intro c hc
    exact h c (List.mem_reverse.mp (List.mem_of_mem_head? (by rw [hc]; exact rfl)))

lemma jsTrim_canon (f i : ℕ) :
    jsTrim (natToChars f ++ aposChar :: ' ' :: (natToChars i ++ [quoteChar]))
      = natToChars f ++ aposChar :: ' ' :: (natToChars i ++ [quoteChar]) := by
  apply jsTrim_eq_self_of_ends
  · intro c hc
    obtain ⟨c0, nf, hnf⟩ := List.exists_cons_of_ne_nil (natToChars_ne_nil f)
    rw [hnf, List.cons_append, List.head?_cons] at hc
    have hc0 : c = c0 := by simpa using hc.symm
    subst hc0
    exact digit_not_space c (natToChars_all_digits f c (hnf ▸ List.mem_cons_self _ _))
  · intro c hc
    have hb : natToChars f ++ aposChar :: ' ' :: (natToChars i ++ [quoteChar])
        = (natToChars f ++ aposChar :: ' ' :: natToChars i) ++ [quoteChar] := by
      simp
    rw [hb, List.reverse_append, List.reverse_singleton, List.singleton_append,
      List.head?_cons] at hc
    have hq : c = quoteChar := by simpa using hc.symm
    subst hq
    decide

lemma aposMatch_canon (f i : ℕ) :
    aposMatch (natToChars f ++ aposChar :: ' ' :: (natToChars i ++ [quoteChar]))
      = some (natToChars f, natToChars i) := by
  obtain ⟨c0, nf, hnf⟩ := List.exists_cons_of_ne_nil (natToChars_ne_nil f)
  have hdf := natToChars_all_digits f
  have hdi := natToChars_all_digits i
  have hc0 : c0.isDigit = true := hdf c0 (hnf ▸ List.mem_cons_self _ _)
  have hnf' : ∀ c ∈ nf, c.isDigit = true :=
    fun c hc => hdf c (hnf ▸ List.mem_cons_of_mem _ hc)
  rw [hnf, List.cons_append, aposMatch]
  have hA : (nf ++ aposChar :: ' ' :: (natToChars i ++ [quoteChar])).dropWhile Char.isDigit
      = aposChar :: ' ' :: (natToChars i ++ [quoteChar]) := by
    rw [dropWhile_append_all _ nf _ hnf', List.dropWhile_cons, if_neg (by decide)]
  have hB : (aposChar :: ' ' :: (natToChars i ++ [quoteChar])).dropWhile jsIsSpace
      = aposChar :: ' ' :: (natToChars i ++ [quoteChar]) := by
    rw [List.dropWhile_cons, if_neg (by decide)]
  rw [if_pos hc0, hA, hB, if_pos (by rw [List.head?_cons])]
  have hC : (natToChars i ++ [quoteChar]).dropWhile jsIsSpace
      = natToChars i ++ [quoteChar] := by
    apply dropWhile_eq_self_of_head
    intro c hcc
    obtain ⟨c1, ni, hni⟩ := List.exists_cons_of_ne_nil (natToChars_ne_nil i)
    rw [hni, List.cons_append, List.head?_cons] at hcc
    have hc1 : c = c1 := by simpa using hcc.symm
    subst hc1
    exact digit_not_space c (hdi c (hni ▸ List.mem_cons_self _ _))
  have hD : (natToChars i ++ [quoteChar]).takeWhile Char.isDigit = natToChars i := by
    rw [takeWhile_append_all _ _ _ hdi, List.takeWhile_cons, if_neg (by decide),
      List.append_nil]
  have hE : (c0 :: (nf ++ aposChar :: ' ' :: (natToChars i ++ [quoteChar]))).takeWhile
      Char.isDigit = natToChars f := by
    rw [← List.cons_append, ← hnf, takeWhile_append_all _ _ _ hdf, List.takeWhile_cons,
      if_neg (by decide), List.append_nil]
  rw [List.tail_cons, List.dropWhile_cons, if_pos (by decide), hC, hD, hE, hnf]

lemma formatFeetInchesChars_digits (f i : ℕ) (hi : i < 12) :
    formatFeetInchesChars (natToChars f) (natToChars i)
      = natToChars f ++ aposChar :: ' ' :: (natToChars i ++ [quoteChar]) := by
  have htf : jsTrim (natToChars f) = natToChars f :=
    jsTrim_all_not_space _ (fun c hc => digit_not_space c (natToChars_all_digits f c hc))
  have hti : jsTrim (natToChars i) = natToChars i :=
    jsTrim_all_not_space _ (fun c hc => digit_not_space c (natToChars_all_digits i c hc))
  unfold formatFeetInchesChars
  rw [htf, hti, if_neg (by simp [natToChars_ne_nil f]), if_neg (natToChars_ne_nil f),
    if_neg (natToChars_ne_nil i), jsDigitsToNat_natToChars, jsDigitsToNat_natToChars]
  dsimp only
  have h1 : (f * 12 + i) / 12 = f := by omega
  have h2 : (f * 12 + i) % 12 = i := by omega
  rw [h1, h2]

lemma parseFeetInchesChars_canon (f i : ℕ) :
    parseFeetInchesChars (natToChars f ++ aposChar :: ' ' :: (natToChars i ++ [quoteChar]))
      = (natToChars f, natToChars i) := by
  unfold parseFeetInchesChars
  rw [jsTrim_canon f i, aposMatch_canon f i, if_neg (by simp [natToChars_ne_nil f])]

theorem formatFeetInches_spec :
    formatFeetInches (String.mk ['3']) (String.mk ['1', '4'])
        = String.mk ['4', aposChar, ' ', '2', quoteChar] ∧
    ∀ f i : ℕ, i < 12 →
      parseFeetInches (formatFeetInches (String.mk (natToChars f)) (String.mk (natToChars i)))
          = (String.mk (natToChars f), String.mk (natToChars i)) ∧
      jsDigitsToNat (natToChars f) = some f ∧ jsDigitsToNat (natToChars i) = some i := by
  refine ⟨by decide, ?_⟩
  intro f i hi
  refine ⟨?_, jsDigitsToNat_natToChars f, jsDigitsToNat_natToChars i⟩
  show parseFeetInches (String.mk (formatFeetInchesChars (natToChars f) (natToChars i))) = _
  rw [formatFeetInchesChars_digits f i hi]
  show (String.mk (parseFeetInchesChars (natToChars f ++ aposChar :: ' ' ::
      (natToChars i ++ [quoteChar]))).1,
    String.mk (parseFeetInchesChars (natToChars f ++ aposChar :: ' ' ::
      (natToChars i ++ [quoteChar]))).2) = _
  rw [parseFeetInchesChars_canon f i]

theorem formatFeetInches_spec_witness :
    parseFeetInches (formatFeetInches (String.mk (natToChars 3)) (String.mk (natToChars 2)))
        = (String.mk (natToChars 3), String.mk (natToChars 2)) ∧
    jsDigitsToNat (natToChars 3) = some 3 ∧ jsDigitsToNat (natToChars 2) = some 2 :=
  formatFeetInches_spec.2 3 2 (by norm_num)

end Calpac
